import Mathlib

/-!
Verification of the wildcard grammar engine in `src/src/wildcard.rs`
(repository keynslug/orphans).

The data model (`Choice`, `Production`, `Wildcard`, `WildcardParseError`,
`WildcardParser`) and the parser (`WildcardParser.run` together with its
helpers `capture`, `push`, `flush`, `reset_capture`, `start_capture`) are
shallow embeddings of the Rust source.  Strings are modelled as `List Char`
and the byte offsets produced by `char_indices` are modelled as character
positions; both orders and both slicing operations agree on character
boundaries, so the embedding is faithful.  Character comparison (`<` on
Rust `char`) is code-point comparison, modelled through `Char.toNat`.

The renderer embeds `impl Display for Wildcard` (the nested `fmt_choice` /
`fmt_token` functions); in that impl the source refers to the production
type by the name `Token`, which is the `Production` enum of the same file.

The matcher is not present as working code in the source (the relevant
function is commented out and stubbed to return `false`); it is modelled
from the specification, see `Wildcard.matches` below.
-/

namespace Orphans

/-- Alphabet of a non-terminal grammar production (enum `Choice` in
`src/src/wildcard.rs`): any character from a slice, or any character from
an inclusive range. -/
inductive Choice where
  | AnyOf (s : List Char)
  | Range (lo hi : Char)
  deriving DecidableEq

/-- Any possible production of a wildcard grammar (enum `Production` in
`src/src/wildcard.rs`). -/
inductive Production where
  | Sequence (s : List Char)
  | ManyOf (cs : List Choice)
  | OneOf (cs : List Choice)
  | Not (p : Production)
  deriving DecidableEq

/-- Conceptually, a `Wildcard` is some grammar in the language of all
strings (struct `Wildcard`, a vector of productions). -/
abbrev Wildcard := List Production

/-- `Wildcard::new` — creates an empty `Wildcard`. -/
def Wildcard.new : Wildcard := []

/-- Errors which can occur during parsing a string as a wildcard
(enum `WildcardParseError`). -/
inductive WildcardParseError where
  | Incomplete
  | InvalidCharRange (lo hi : Char)
  deriving DecidableEq

/-- Type to hold some state during parsing a string as a wildcard
(struct `WildcardParser`). -/
structure WildcardParser where
  source : List Char
  result : Wildcard
  start : Option Nat
  negate : Bool
  deriving DecidableEq

namespace WildcardParser

/-- `WildcardParser::new`. -/
def new (source : List Char) : WildcardParser :=
  { source := source, result := Wildcard.new, start := none, negate := false }

/-- `WildcardParser::capture` — cuts a slice with the active capture if it
is non-empty (`&self.source[start..index]` when `index > start`). -/
def capture (self : WildcardParser) (index : Nat) : Option (List Char) :=
  match self.start with
  | some start => if start < index then some ((self.source.drop start).take (index - start)) else none
  | none => none

/-- `WildcardParser::push` — push a given token to the buffer, negate if
needed. -/
def push (self : WildcardParser) (p : Production) : WildcardParser :=
  if self.negate then
    { self with negate := false, result := self.result ++ [Production.Not p] }
  else
    { self with result := self.result ++ [p] }

/-- `WildcardParser::flush` — push a `Sequence` to the buffer if there is a
non-empty active capture. -/
def flush (self : WildcardParser) (index : Nat) : WildcardParser :=
  match self.capture index with
  | some cap => self.push (Production.Sequence cap)
  | none => self

/-- `WildcardParser::reset_capture` — clears the active capture index. -/
def reset_capture (self : WildcardParser) : WildcardParser :=
  { self with start := none }

/-- `WildcardParser::start_capture` — starts the active capture at `index`. -/
def start_capture (self : WildcardParser) (index : Nat) : WildcardParser :=
  { self with start := some index }

/-- One iteration of the `while let` loop of `WildcardParser::run`, for
the current character `(index, c)` of the `char_indices` iterator.
`token` is the local `token` variable and `prev` the local `prev` variable
of the Rust function; `rest` is the not-yet-consumed remainder of the
iterator, from which the `iter.next()` calls inside the `'['` and `'-'`
arms pull their extra character (those characters never go through the
loop head, so `prev` is not updated for them).  The result is the state
and token after the iteration together with a flag telling whether the
head of `rest` was consumed by an in-arm `iter.next()`. -/
def step (self : WildcardParser) (token : Production) (prev : Nat × Char)
    (index : Nat) (c : Char) (rest : List (Nat × Char)) :
    Except WildcardParseError (WildcardParser × Production × Bool) :=
  let self := if self.start.isNone then self.start_capture index else self
  if c = '*' then
    match token with
    | Production.Sequence s =>
      .ok (((self.flush index).reset_capture).push (Production.ManyOf []),
           Production.Sequence s, false)
    | _ => .ok (self, token, false)
  else if c = '?' then
    match token with
    | Production.Sequence s =>
      .ok (((self.flush index).reset_capture).push (Production.OneOf []),
           Production.Sequence s, false)
    | _ => .ok (self, token, false)
  else if c = '[' then
    match token with
    | Production.Sequence _ =>
      let self := self.flush index
      match rest with
      | [] => .error WildcardParseError.Incomplete
      | (index2, c2) :: _ =>
        let self := self.start_capture index2
        let self :=
          if c2 = '!' then { self.reset_capture with negate := true } else self
        .ok (self, Production.OneOf [], true)
    | _ => .ok (self, token, false)
  else if c = '-' then
    match token with
    | Production.OneOf choices =>
      let choices :=
        match self.capture prev.1 with
        | some cap => choices ++ [Choice.AnyOf cap]
        | none => choices
      match rest with
      | [] => .error WildcardParseError.Incomplete
      | (_, c2) :: _ =>
        if c2.toNat < prev.2.toNat then
          .error (WildcardParseError.InvalidCharRange prev.2 c2)
        else
          .ok (self.reset_capture,
               Production.OneOf (choices ++ [Choice.Range prev.2 c2]), true)
    | _ => .ok (self, token, false)
  else if c = ']' then
    match token with
    | Production.OneOf choices =>
      let choices :=
        match self.capture index with
        | some cap => choices ++ [Choice.AnyOf cap]
        | none => choices
      let self := self.reset_capture
      let self := self.push (Production.OneOf choices)
      .ok (self, Production.Sequence self.source, false)
    | _ => .ok (self, token, false)
  else
    .ok (self, token, false)

/-- The `while let` loop of `WildcardParser::run`: iterate `step` over the
`char_indices` list, updating `prev` to the loop's current character after
each iteration and skipping the head of `rest` when the iteration consumed
it in-arm.  (When `step` reports a consumed character, `rest` is
necessarily non-empty; the `[]` alternative of that inner match is
unreachable and returns what the loop would return on an empty
iterator.) -/
def runAux (self : WildcardParser) (token : Production) (prev : Nat × Char) :
    List (Nat × Char) → Except WildcardParseError (WildcardParser × Production)
  | [] => .ok (self, token)
  | (index, c) :: rest =>
    match step self token prev index c rest with
    | .error e => .error e
    | .ok (self2, token2, consumed) =>
      if consumed then
        match rest with
        | [] => .ok (self2, token2)
        | _ :: rest2 => runAux self2 token2 (index, c) rest2
      else
        runAux self2 token2 (index, c) rest

/-- `WildcardParser::run` — proceeds with parsing: the loop over
`char_indices`, then the final check that the scan did not end inside a
bracket expression, and the final flush of a trailing literal capture. -/
def run (self : WildcardParser) : Except WildcardParseError Wildcard :=
  match runAux self (Production.Sequence self.source) (0, Char.ofNat 0) self.source.enum with
  | .error e => .error e
  | .ok (st, token) =>
    match token with
    | Production.Sequence _ => .ok (st.flush st.source.length).result
    | _ => .error WildcardParseError.Incomplete

end WildcardParser

/-- `Wildcard::parse` — parses a source string into a `Wildcard` by
running a fresh `WildcardParser` over it. -/
def Wildcard.parse (source : List Char) : Except WildcardParseError Wildcard :=
  (WildcardParser.new source).run

/-- Rendering of one choice (`fmt_choice` inside `impl Display for
Wildcard`): a member slice is written verbatim, a range as `lo-hi`. -/
def fmt_choice : Choice → List Char
  | Choice.AnyOf s => s
  | Choice.Range lo hi => [lo, '-', hi]

/-- Rendering of one production (`fmt_token` inside `impl Display for
Wildcard`; the source spells the production type `Token` there): a
sequence is written verbatim, `ManyOf` as `*`, an empty `OneOf` as `?`,
a non-empty `OneOf` as a bracket expression (with `!` when reached under a
negation), and `Not` renders its payload with the negate flag set. -/
def fmt_token : Production → Bool → List Char
  | Production.Sequence s, _ => s
  | Production.ManyOf _, _ => ['*']
  | Production.OneOf [], _ => ['?']
  | Production.OneOf choices, negate =>
      ['['] ++ (if negate then ['!'] else []) ++ (choices.map fmt_choice).flatten ++ [']']
  | Production.Not token, _ => fmt_token token true

/-- `impl Display for Wildcard` — every production is rendered with the
negate flag initially `false`. -/
def Wildcard.render (w : Wildcard) : List Char :=
  (w.map (fun t => fmt_token t false)).flatten

/-- Modelled from the spec: the matcher is missing from the source (the
`Wildcard::matches` / `matches_after` functions are commented out and the
stub returns `false`); spec §4.3 supplies the algorithm.  Membership of a
character in one choice: it "equals any Members entry or falls within any
Range (inclusive)". -/
def choiceMatches (c : Char) : Choice → Bool
  | Choice.AnyOf s => s.contains c
  | Choice.Range lo hi => decide (lo.toNat ≤ c.toNat ∧ c.toNat ≤ hi.toNat)

/-- Modelled from the spec: membership of a character in a character
class; "if `negated`, invert the membership test" (spec §4.3). -/
def classMatches (choices : List Choice) (negated : Bool) (c : Char) : Bool :=
  let m := choices.any (choiceMatches c)
  if negated then !m else m

/-- Measure for the termination of `matchAux`: the length of the subject
stored in the backtracking checkpoint (at least the current subject). -/
def ckBound (subject : List Char) : Option (Wildcard × List Char) → Nat
  | none => subject.length
  | some (_, ssub) => max ssub.length subject.length

/-- Modelled from the spec: two-cursor backtracking over the token
sequence and the subject (spec §4.3), with at most one active checkpoint.
The cursors are represented by the remaining token list and the remaining
subject; the checkpoint `(star_pi, star_si)` by the token list starting at
the most recent unresolved Star and the subject remaining at `star_si`.
A failed item backtracks: the checkpoint subject advances by one character
and scanning retries from the Star (which re-records the checkpoint); with
no checkpoint, or when `star_si` would exceed the subject, the match
fails.  In the source AST a Literal is `Sequence`, a Star is `ManyOf`, an
AnyChar is a zero-choice `OneOf` and a negated character class is
`Not (OneOf cs)` (spec §3 narrows negation to character classes; `Not`
over any other production never arises from parsing and is treated as a
failing item). -/
def matchAux : Wildcard → List Char → Option (Wildcard × List Char) → Bool
  | [], [], _ => true
  | [], _ :: _, none => false
  | [], _ :: _, some (_, []) => false
  | [], _ :: _, some (stoks, _ :: stail) => matchAux stoks stail (some (stoks, stail))
  | Production.Sequence s :: rest, subj, none =>
    if s.isPrefixOf subj then matchAux rest (subj.drop s.length) none
    else false
  | Production.Sequence s :: rest, subj, some (stoks, ssub) =>
    if s.isPrefixOf subj then matchAux rest (subj.drop s.length) (some (stoks, ssub))
    else
      match ssub with
      | [] => false
      | _ :: stail => matchAux stoks stail (some (stoks, stail))
  | Production.ManyOf cs :: rest, subj, none =>
    matchAux rest subj (some (Production.ManyOf cs :: rest, subj))
  | Production.ManyOf cs :: rest, subj, some (_, _) =>
    matchAux rest subj (some (Production.ManyOf cs :: rest, subj))
  | Production.OneOf [] :: rest, _ :: ss, none => matchAux rest ss none
  | Production.OneOf [] :: rest, _ :: ss, some (stoks, ssub) =>
    matchAux rest ss (some (stoks, ssub))
  | Production.OneOf (ch :: chs) :: rest, c :: ss, none =>
    if classMatches (ch :: chs) false c then matchAux rest ss none
    else false
  | Production.OneOf (ch :: chs) :: rest, c :: ss, some (stoks, ssub) =>
    if classMatches (ch :: chs) false c then matchAux rest ss (some (stoks, ssub))
    else
      match ssub with
      | [] => false
      | _ :: stail => matchAux stoks stail (some (stoks, stail))
  | Production.Not p :: rest, c :: ss, none =>
    (match p with
     | Production.OneOf cs =>
       if classMatches cs true c then matchAux rest ss none
       else false
     | _ => false)
  | Production.Not p :: rest, c :: ss, some (stoks, ssub) =>
    (match p with
     | Production.OneOf cs =>
       if classMatches cs true c then matchAux rest ss (some (stoks, ssub))
       else
         match ssub with
         | [] => false
         | _ :: stail => matchAux stoks stail (some (stoks, stail))
     | _ =>
       match ssub with
       | [] => false
       | _ :: stail => matchAux stoks stail (some (stoks, stail)))
  | Production.OneOf _ :: _, [], none => false
  | Production.Not _ :: _, [], none => false
  | Production.OneOf _ :: _, [], some (_, []) => false
  | Production.Not _ :: _, [], some (_, []) => false
  | Production.OneOf _ :: _, [], some (stoks, _ :: stail) =>
    matchAux stoks stail (some (stoks, stail))
  | Production.Not _ :: _, [], some (stoks, _ :: stail) =>
    matchAux stoks stail (some (stoks, stail))
termination_by toks subj ck => (ckBound subj ck, toks.length)
decreasing_by
all_goals simp only [ckBound, Prod.lex_def, List.length_drop, List.length_cons]
all_goals omega

/-- Modelled from the spec: `matches(pattern, subject) -> bool`
(spec §4.3), started with no active checkpoint. -/
def Wildcard.matches (w : Wildcard) (subject : List Char) : Bool :=
  matchAux w subject none

/-- A choice is well-ranged when, if it is a `Range lo hi`, the endpoints
are in code-point order (`lo <= hi`). -/
def choiceOK : Choice → Prop
  | Choice.AnyOf _ => True
  | Choice.Range lo hi => lo.toNat ≤ hi.toNat

/-- A production is well-ranged when every `Range` choice contained in it
is well-ranged. -/
def prodOK : Production → Prop
  | Production.Sequence _ => True
  | Production.ManyOf cs => ∀ ch ∈ cs, choiceOK ch
  | Production.OneOf cs => ∀ ch ∈ cs, choiceOK ch
  | Production.Not p => prodOK p

/-- Recognizer for the `Sequence` (literal) shape of a production. -/
def isSequence : Production → Bool
  | Production.Sequence _ => true
  | _ => false

/-- Recognizer for a character-class production carrying zero choices,
negated or not (the spec's `CharClass` with an empty choice list). -/
def isZeroChoiceClass : Production → Bool
  | Production.OneOf [] => true
  | Production.Not (Production.OneOf []) => true
  | _ => false

/-- No two adjacent productions in a pattern are both literal `Sequence`
tokens (spec: "Literal spans are maximal"). -/
def noAdjacentLiterals (w : Wildcard) : Prop :=
  List.Chain' (fun a b => isSequence a = false ∨ isSequence b = false) w

/-- Every literal `Sequence` token in a pattern carries a non-empty text
span. -/
def literalsNonempty (w : Wildcard) : Prop :=
  ∀ p ∈ w, ∀ t, p = Production.Sequence t → t ≠ []

@[simp] theorem result_reset (st : WildcardParser) : st.reset_capture.result = st.result := rfl

@[simp] theorem result_start_capture (st : WildcardParser) (i : Nat) :
    (st.start_capture i).result = st.result := rfl

@[simp] theorem push_source (st : WildcardParser) (p : Production) :
    (st.push p).source = st.source := by
  unfold WildcardParser.push; split <;> rfl

@[simp] theorem flush_source (st : WildcardParser) (i : Nat) :
    (st.flush i).source = st.source := by
  unfold WildcardParser.flush; split
  · exact push_source st _
  · rfl

@[simp] theorem reset_source (st : WildcardParser) : st.reset_capture.source = st.source := rfl

@[simp] theorem start_capture_source (st : WildcardParser) (i : Nat) :
    (st.start_capture i).source = st.source := rfl

@[simp] theorem push_negate (st : WildcardParser) (p : Production) :
    (st.push p).negate = false := by
  unfold WildcardParser.push; split
  · rfl
  next h => simpa using h

@[simp] theorem push_start (st : WildcardParser) (p : Production) :
    (st.push p).start = st.start := by
  unfold WildcardParser.push; split <;> rfl

@[simp] theorem flush_start (st : WildcardParser) (i : Nat) :
    (st.flush i).start = st.start := by
  unfold WildcardParser.flush; split
  · exact push_start st _
  · rfl

theorem flush_negate (st : WildcardParser) (i : Nat) (h : st.negate = false) :
    (st.flush i).negate = false := by
  unfold WildcardParser.flush; split
  · exact push_negate st _
  · exact h

@[simp] theorem result_ite_start (st : WildcardParser) (i : Nat) :
    (if st.start.isNone = true then st.start_capture i else st).result = st.result := by
  split <;> rfl

@[simp] theorem negate_ite_start (st : WildcardParser) (i : Nat) :
    (if st.start.isNone = true then st.start_capture i else st).negate = st.negate := by
  split <;> rfl

@[simp] theorem source_ite_start (st : WildcardParser) (i : Nat) :
    (if st.start.isNone = true then st.start_capture i else st).source = st.source := by
  split <;> rfl

theorem push_result_cases (st : WildcardParser) (p : Production) :
    (st.push p).result = st.result ++ [p] ∨
    (st.push p).result = st.result ++ [Production.Not p] := by
  unfold WildcardParser.push; split
  · right; rfl
  · left; rfl

theorem capture_eq_some {st : WildcardParser} {i : Nat} {cap : List Char}
    (h : st.capture i = some cap) :
    ∃ j, st.start = some j ∧ j < i ∧ cap = (st.source.drop j).take (i - j) := by
  unfold WildcardParser.capture at h
  split at h
  · rename_i j hj
    split at h
    · rename_i hji
      refine ⟨j, hj, hji, ?_⟩
      simpa using h.symm
    · exact absurd h (by simp)
  · exact absurd h (by simp)

theorem capture_ne_nil {st : WildcardParser} {i : Nat} {cap : List Char}
    (h : st.capture i = some cap) (hi : i ≤ st.source.length) : cap ≠ [] := by
  obtain ⟨j, hj, hji, hcap⟩ := capture_eq_some h
  subst hcap
  intro hnil
  have := congrArg List.length hnil
  simp only [List.length_take, List.length_drop, List.length_nil] at this
  omega

theorem notSeq_no_payload {p : Production} (hp : isSequence p = false) :
    ∀ t, p = Production.Sequence t → t ≠ [] := by
  intro t ht
  subst ht
  exact absurd hp (by simp [isSequence])

theorem isSequence_not (p : Production) : isSequence (Production.Not p) = false := rfl

theorem noAdj_push_notSeq {st : WildcardParser} {p : Production}
    (hA : noAdjacentLiterals st.result) (hp : isSequence p = false) :
    noAdjacentLiterals (st.push p).result := by
  rcases push_result_cases st p with h | h <;> rw [noAdjacentLiterals, h, List.chain'_append] <;>
    refine ⟨hA, List.chain'_singleton _, ?_⟩ <;> intro x hx y hy <;>
    simp only [List.head?_cons, Option.mem_def, Option.some.injEq] at hy <;> subst hy
  · exact Or.inr hp
  · exact Or.inr (isSequence_not p)

theorem litNE_push_notSeq {st : WildcardParser} {p : Production}
    (hB : literalsNonempty st.result) (hp : isSequence p = false) :
    literalsNonempty (st.push p).result := by
  rcases push_result_cases st p with h | h <;> rw [h] <;> intro q hq <;>
    rcases List.mem_append.mp hq with hq | hq
  · exact hB q hq
  · rcases List.mem_singleton.mp hq with rfl
    exact notSeq_no_payload hp
  · exact hB q hq
  · rcases List.mem_singleton.mp hq with rfl
    exact notSeq_no_payload (isSequence_not p)

theorem last_push_notSeq {st : WildcardParser} {p : Production}
    (hp : isSequence p = false) :
    ∀ q, (st.push p).result.getLast? = some q → isSequence q = false := by
  rcases push_result_cases st p with h | h <;> rw [h] <;> intro q hq <;>
    rw [List.getLast?_concat] at hq <;>
    simp only [Option.some.injEq] at hq <;> subst hq
  · exact hp
  · exact isSequence_not p

theorem lit_flush {st : WildcardParser} {i : Nat}
    (hA : noAdjacentLiterals st.result) (hB : literalsNonempty st.result)
    (hneg : st.negate = false)
    (hlast : ∀ q, st.result.getLast? = some q → isSequence q = false)
    (hi : i ≤ st.source.length) :
    noAdjacentLiterals (st.flush i).result ∧ literalsNonempty (st.flush i).result := by
  unfold WildcardParser.flush
  cases hc : st.capture i with
  | none => exact ⟨hA, hB⟩
  | some cap =>
    have hres : (st.push (Production.Sequence cap)).result = st.result ++ [Production.Sequence cap] := by
      unfold WildcardParser.push
      rw [hneg]
      simp
    constructor
    · rw [noAdjacentLiterals, hres, List.chain'_append]
      refine ⟨hA, List.chain'_singleton _, ?_⟩
      intro x hx y hy
      simp only [List.head?_cons, Option.mem_def, Option.some.injEq] at hy
      subst hy
      exact Or.inl (hlast x (by simpa using hx))
    · rw [hres]
      intro q hq
      rcases List.mem_append.mp hq with hq | hq
      · exact hB q hq
      · rcases List.mem_singleton.mp hq with rfl
        intro t ht
        injection ht with ht
        subst ht
        exact capture_ne_nil hc hi

set_option maxHeartbeats 1000000 in
theorem step_lit {st : WildcardParser} {token : Production} {prev : Nat × Char}
    {i : Nat} {c : Char} {rest : List (Nat × Char)}
    {st2 : WildcardParser} {token2 : Production} {consumed : Bool}
    (hs : WildcardParser.step st token prev i c rest = .ok (st2, token2, consumed))
    (hA : noAdjacentLiterals st.result) (hB : literalsNonempty st.result)
    (hC : ∀ s, token = Production.Sequence s →
        st.negate = false ∧ ∀ q, st.result.getLast? = some q → isSequence q = false)
    (hi : i ≤ st.source.length) :
    noAdjacentLiterals st2.result ∧ literalsNonempty st2.result ∧
    (∀ s, token2 = Production.Sequence s →
        st2.negate = false ∧ ∀ q, st2.result.getLast? = some q → isSequence q = false) ∧
    st2.source = st.source := by
  unfold WildcardParser.step at hs
  set self := if st.start.isNone = true then st.start_capture i else st with hself
  have hres_eq : self.result = st.result := by rw [hself]; exact result_ite_start st i
  have hneg_eq : self.negate = st.negate := by rw [hself]; exact negate_ite_start st i
  have hsrc_eq : self.source = st.source := by rw [hself]; exact source_ite_start st i
  clear_value self
  have hA1 : noAdjacentLiterals self.result := by rwa [hres_eq]
  have hB1 : literalsNonempty self.result := by rwa [hres_eq]
  have hi1 : i ≤ self.source.length := by rwa [hsrc_eq]
  split at hs
  · -- c = '*'
    split at hs <;>
      (injection hs with hs; injection hs with h1 hs; injection hs with h2 h3;
       subst h1; subst h2)
    · -- token = Sequence s
      rename_i s
      obtain ⟨hneg, hlast⟩ := hC s rfl
      have hneg1 : self.negate = false := by rwa [hneg_eq]
      have hlast1 : ∀ q, self.result.getLast? = some q → isSequence q = false := by
        rw [hres_eq]; exact hlast
      obtain ⟨hA2, hB2⟩ := lit_flush hA1 hB1 hneg1 hlast1 hi1
      refine ⟨noAdj_push_notSeq hA2 rfl, litNE_push_notSeq hB2 rfl, ?_, by simp [hsrc_eq]⟩
      intro t ht
      exact ⟨push_negate _ _, last_push_notSeq rfl⟩
    · exact ⟨hA1, hB1, fun s hts => by
        obtain ⟨h1, h2⟩ := hC s hts
        exact ⟨by rwa [hneg_eq], by rwa [hres_eq]⟩, hsrc_eq⟩
  · split at hs
    · -- c = '?'
      split at hs <;>
        (injection hs with hs; injection hs with h1 hs; injection hs with h2 h3;
         subst h1; subst h2)
      · rename_i s
        obtain ⟨hneg, hlast⟩ := hC s rfl
        have hneg1 : self.negate = false := by rwa [hneg_eq]
        have hlast1 : ∀ q, self.result.getLast? = some q → isSequence q = false := by
          rw [hres_eq]; exact hlast
        obtain ⟨hA2, hB2⟩ := lit_flush hA1 hB1 hneg1 hlast1 hi1
        refine ⟨noAdj_push_notSeq hA2 rfl, litNE_push_notSeq hB2 rfl, ?_, by simp [hsrc_eq]⟩
        intro t ht
        exact ⟨push_negate _ _, last_push_notSeq rfl⟩
      · exact ⟨hA1, hB1, fun s hts => by
          obtain ⟨h1, h2⟩ := hC s hts
          exact ⟨by rwa [hneg_eq], by rwa [hres_eq]⟩, hsrc_eq⟩
    · split at hs
      · -- c = '['
        split at hs
        · -- token = Sequence
          rename_i s
          split at hs
          · exact absurd hs (by simp)
          · injection hs with hs; injection hs with h1 hs; injection hs with h2 h3
            subst h1; subst h2
            obtain ⟨hneg, hlast⟩ := hC s rfl
            have hneg1 : self.negate = false := by rwa [hneg_eq]
            have hlast1 : ∀ q, self.result.getLast? = some q → isSequence q = false := by
              rw [hres_eq]; exact hlast
            obtain ⟨hA2, hB2⟩ := lit_flush hA1 hB1 hneg1 hlast1 hi1
            refine ⟨?_, ?_, fun t ht => Production.noConfusion ht, ?_⟩
            · split <;> exact hA2
            · split <;> exact hB2
            · split <;> simp [hsrc_eq]
        · injection hs with hs; injection hs with h1 hs; injection hs with h2 h3
          subst h1; subst h2
          exact ⟨hA1, hB1, fun s hts => by
            obtain ⟨h1, h2⟩ := hC s hts
            exact ⟨by rwa [hneg_eq], by rwa [hres_eq]⟩, hsrc_eq⟩
      · split at hs
        · -- c = '-'
          split at hs
          · -- token = OneOf
            split at hs
            · exact absurd hs (by simp)
            · split at hs
              · exact absurd hs (by simp)
              · injection hs with hs; injection hs with h1 hs; injection hs with h2 h3
                subst h1; subst h2
                exact ⟨by simpa using hA1, by simpa using hB1,
                  fun t ht => Production.noConfusion ht, by simpa using hsrc_eq⟩
          · injection hs with hs; injection hs with h1 hs; injection hs with h2 h3
            subst h1; subst h2
            exact ⟨hA1, hB1, fun s hts => by
              obtain ⟨h1, h2⟩ := hC s hts
              exact ⟨by rwa [hneg_eq], by rwa [hres_eq]⟩, hsrc_eq⟩
        · split at hs
          · -- c = ']'
            split at hs
            · -- token = OneOf
              injection hs with hs; injection hs with h1 hs; injection hs with h2 h3
              subst h1; subst h2
              refine ⟨noAdj_push_notSeq (by simpa using hA1) rfl,
                litNE_push_notSeq (by simpa using hB1) rfl, ?_, by simp [hsrc_eq]⟩
              intro t ht
              exact ⟨push_negate _ _, last_push_notSeq rfl⟩
            · injection hs with hs; injection hs with h1 hs; injection hs with h2 h3
              subst h1; subst h2
              exact ⟨hA1, hB1, fun s hts => by
                obtain ⟨h1, h2⟩ := hC s hts
                exact ⟨by rwa [hneg_eq], by rwa [hres_eq]⟩, hsrc_eq⟩
          · injection hs with hs; injection hs with h1 hs; injection hs with h2 h3
            subst h1; subst h2
            exact ⟨hA1, hB1, fun s hts => by
              obtain ⟨h1, h2⟩ := hC s hts
              exact ⟨by rwa [hneg_eq], by rwa [hres_eq]⟩, hsrc_eq⟩

theorem fst_lt_of_mem_enumFrom {α : Type} :
    ∀ (xs : List α) (n : Nat) (q : Nat × α), q ∈ xs.enumFrom n → q.1 < n + xs.length := by
  intro xs
  induction xs with
  | nil => intro n q hq; simp [List.enumFrom] at hq
  | cons x xs ih =>
    intro n q hq
    simp only [List.enumFrom, List.mem_cons] at hq
    rcases hq with rfl | hq
    · simp
    · have := ih (n + 1) q hq
      simp only [List.length_cons]
      omega

theorem fst_lt_of_mem_enum {α : Type} (xs : List α) (q : Nat × α) (hq : q ∈ xs.enum) :
    q.1 < xs.length := by
  have := fst_lt_of_mem_enumFrom xs 0 q (by simpa [List.enum] using hq)
  simpa using this

theorem runAux_lit :
    ∀ (st : WildcardParser) (token : Production) (prev : Nat × Char) (l : List (Nat × Char))
      (st2 : WildcardParser) (tk2 : Production),
      WildcardParser.runAux st token prev l = .ok (st2, tk2) →
      noAdjacentLiterals st.result → literalsNonempty st.result →
      (∀ s, token = Production.Sequence s →
          st.negate = false ∧ ∀ q, st.result.getLast? = some q → isSequence q = false) →
      (∀ q ∈ l, q.1 < st.source.length) →
      noAdjacentLiterals st2.result ∧ literalsNonempty st2.result ∧
      (∀ s, tk2 = Production.Sequence s →
          st2.negate = false ∧ ∀ q, st2.result.getLast? = some q → isSequence q = false) ∧
      st2.source = st.source := by
  intro st token prev l
  induction st, token, prev, l using WildcardParser.runAux.induct with
  | case1 self token prev =>
    intro st2 tk2 hrun hA hB hC hl
    simp only [WildcardParser.runAux, Except.ok.injEq, Prod.mk.injEq] at hrun
    obtain ⟨rfl, rfl⟩ := hrun
    exact ⟨hA, hB, hC, rfl⟩
  | case2 self token prev index c tail e hstep =>
    intro st2 tk2 hrun hA hB hC hl
    simp only [WildcardParser.runAux, hstep] at hrun
    exact absurd hrun (by simp)
  | case3 self token prev index c self2 token2 hstep =>
    intro st2 tk2 hrun hA hB hC hl
    simp only [WildcardParser.runAux, hstep, if_true, Except.ok.injEq, Prod.mk.injEq] at hrun
    obtain ⟨rfl, rfl⟩ := hrun
    exact step_lit hstep hA hB hC (Nat.le_of_lt (hl (index, c) (List.Mem.head _)))
  | case4 self token prev index c self2 token2 head rest2 hstep ih =>
    intro st2 tk2 hrun hA hB hC hl
    simp only [WildcardParser.runAux, hstep, if_true] at hrun
    obtain ⟨hA2, hB2, hC2, hsrc⟩ :=
      step_lit hstep hA hB hC (Nat.le_of_lt (hl (index, c) (List.Mem.head _)))
    obtain ⟨hA3, hB3, hC3, hsrc3⟩ := ih st2 tk2 hrun hA2 hB2 hC2
      (fun q hq => by rw [hsrc]; exact hl q (List.Mem.tail _ (List.Mem.tail _ hq)))
    exact ⟨hA3, hB3, hC3, hsrc3.trans hsrc⟩
  | case5 self token prev index c tail self2 token2 consumed hstep hncons ih =>
    intro st2 tk2 hrun hA hB hC hl
    have hc : consumed = false := by
      cases consumed
      · rfl
      · exact absurd rfl hncons
    subst hc
    simp only [WildcardParser.runAux, hstep, Bool.false_eq_true, if_false] at hrun
    obtain ⟨hA2, hB2, hC2, hsrc⟩ :=
      step_lit hstep hA hB hC (Nat.le_of_lt (hl (index, c) (List.Mem.head _)))
    obtain ⟨hA3, hB3, hC3, hsrc3⟩ := ih st2 tk2 hrun hA2 hB2 hC2
      (fun q hq => by rw [hsrc]; exact hl q (List.Mem.tail _ hq))
    exact ⟨hA3, hB3, hC3, hsrc3.trans hsrc⟩

theorem mem_push_cases {st : WildcardParser} {p q : Production}
    (h : q ∈ (st.push p).result) :
    q ∈ st.result ∨ q = p ∨ q = Production.Not p := by
  rcases push_result_cases st p with he | he <;> rw [he] at h <;>
    rcases List.mem_append.mp h with h | h
  · exact Or.inl h
  · exact Or.inr (Or.inl (List.mem_singleton.mp h))
  · exact Or.inl h
  · exact Or.inr (Or.inr (List.mem_singleton.mp h))

theorem mem_flush_cases {st : WildcardParser} {i : Nat} {q : Production}
    (h : q ∈ (st.flush i).result) :
    q ∈ st.result ∨ ∃ cap, q = Production.Sequence cap ∨ q = Production.Not (Production.Sequence cap) := by
  unfold WildcardParser.flush at h
  split at h
  · rcases mem_push_cases h with h | h | h
    · exact Or.inl h
    · exact Or.inr ⟨_, Or.inl h⟩
    · exact Or.inr ⟨_, Or.inr h⟩
  · exact Or.inl h

theorem oneOf_nil_notmem_flush {st : WildcardParser} {i : Nat}
    (h : Production.OneOf [] ∈ (st.flush i).result) :
    Production.OneOf [] ∈ st.result := by
  rcases mem_flush_cases h with h | ⟨cap, h | h⟩
  · exact h
  · exact Production.noConfusion h
  · exact Production.noConfusion h

theorem capture_isSome_of_start {st : WildcardParser} {j i : Nat}
    (hst : st.start = some j) (hji : j < i) :
    st.capture i = some ((st.source.drop j).take (i - j)) := by
  unfold WildcardParser.capture
  rw [hst]
  simp [hji]

theorem mem_push_precise {st : WildcardParser} {p q : Production}
    (h : q ∈ (st.push p).result) :
    q ∈ st.result ∨ (st.negate = false ∧ q = p) ∨ (st.negate = true ∧ q = Production.Not p) := by
  unfold WildcardParser.push at h
  split at h
  · rename_i hn
    rcases List.mem_append.mp h with h | h
    · exact Or.inl h
    · exact Or.inr (Or.inr ⟨hn, List.mem_singleton.mp h⟩)
  · rename_i hn
    rcases List.mem_append.mp h with h | h
    · exact Or.inl h
    · exact Or.inr (Or.inl ⟨by simpa using hn, List.mem_singleton.mp h⟩)

@[simp] theorem negate_reset (st : WildcardParser) : st.reset_capture.negate = st.negate := rfl

@[simp] theorem start_reset (st : WildcardParser) : st.reset_capture.start = none := rfl

@[simp] theorem start_of_start_capture (st : WildcardParser) (i : Nat) :
    (st.start_capture i).start = some i := rfl

set_option maxHeartbeats 1000000 in
theorem step_c4 {st : WildcardParser} {token : Production} {prev : Nat × Char}
    {i : Nat} {c : Char} {rest : List (Nat × Char)}
    {st2 : WildcardParser} {token2 : Production} {consumed : Bool}
    (hs : WildcardParser.step st token prev i c rest = .ok (st2, token2, consumed))
    (hinv : token = Production.OneOf [] →
      st.negate = true ∨ ∃ j, st.start = some j ∧ j < i ∧ ∀ q ∈ rest, j < q.1)
    (hsort : List.Pairwise (fun a b : Nat × Char => a.1 < b.1) rest) :
    (token2 = Production.OneOf [] →
      st2.negate = true ∨ ∃ j, st2.start = some j ∧
        ∀ q ∈ (if consumed = true then rest.tail else rest), j < q.1) ∧
    (Production.OneOf [] ∈ st2.result → Production.OneOf [] ∈ st.result ∨ c = '?') := by
  unfold WildcardParser.step at hs
  set self := if st.start.isNone = true then st.start_capture i else st with hself
  have hres_eq : self.result = st.result := by rw [hself]; exact result_ite_start st i
  have hneg_eq : self.negate = st.negate := by rw [hself]; exact negate_ite_start st i
  have hstart_pres : ∀ j, st.start = some j → self.start = some j := by
    intro j hj
    rw [hself]
    simp [hj]
  clear_value self
  split at hs
  · -- c = '*'
    rename_i hc
    split at hs <;>
      (injection hs with hs; injection hs with h1 hs; injection hs with h2 h3;
       subst h1; subst h2; subst h3)
    · refine ⟨fun ht => Production.noConfusion ht, fun hm => ?_⟩
      rcases mem_push_cases hm with hm | hm | hm
      · rw [result_reset] at hm
        exact Or.inl (by rw [← hres_eq]; exact oneOf_nil_notmem_flush hm)
      · exact Production.noConfusion hm
      · exact Production.noConfusion hm
    · refine ⟨fun ht => ?_, fun hm => Or.inl (by rwa [hres_eq] at hm)⟩
      rcases hinv ht with hn | ⟨j, hj, hji, hjr⟩
      · exact Or.inl (by rwa [hneg_eq])
      · exact Or.inr ⟨j, hstart_pres j hj, by simpa using hjr⟩
  · split at hs
    · -- c = '?'
      rename_i hc
      split at hs <;>
        (injection hs with hs; injection hs with h1 hs; injection hs with h2 h3;
         subst h1; subst h2; subst h3)
      · exact ⟨fun ht => Production.noConfusion ht, fun hm => Or.inr hc⟩
      · refine ⟨fun ht => ?_, fun hm => Or.inl (by rwa [hres_eq] at hm)⟩
        rcases hinv ht with hn | ⟨j, hj, hji, hjr⟩
        · exact Or.inl (by rwa [hneg_eq])
        · exact Or.inr ⟨j, hstart_pres j hj, by simpa using hjr⟩
    · split at hs
      · -- c = '['
        split at hs
        · split at hs
          · exact absurd hs (by simp)
          · rename_i hd idx2 c2 tl
            injection hs with hs; injection hs with h1 hs; injection hs with h2 h3
            subst h1; subst h2; subst h3
            constructor
            · intro ht
              by_cases hbang : c2 = '!'
              · exact Or.inl (by simp [hbang])
              · refine Or.inr ⟨idx2, by simp [hbang], ?_⟩
                intro q hq
                simp only [reduceIte, List.tail_cons] at hq
                exact (List.pairwise_cons.mp hsort).1 q hq
            · intro hm
              have hm2 : Production.OneOf [] ∈ (self.flush i).result := by
                revert hm
                split <;> intro hm <;> exact hm
              exact Or.inl (by rw [← hres_eq]; exact oneOf_nil_notmem_flush hm2)
        · injection hs with hs; injection hs with h1 hs; injection hs with h2 h3
          subst h1; subst h2; subst h3
          refine ⟨fun ht => ?_, fun hm => Or.inl (by rwa [hres_eq] at hm)⟩
          rcases hinv ht with hn | ⟨j, hj, hji, hjr⟩
          · exact Or.inl (by rwa [hneg_eq])
          · exact Or.inr ⟨j, hstart_pres j hj, by simpa using hjr⟩
      · split at hs
        · -- c = '-'
          split at hs
          · split at hs
            · exact absurd hs (by simp)
            · split at hs
              · exact absurd hs (by simp)
              · injection hs with hs; injection hs with h1 hs; injection hs with h2 h3
                subst h1; subst h2; subst h3
                refine ⟨fun ht => absurd ht (by simp), fun hm => ?_⟩
                exact Or.inl (by rw [← hres_eq]; simpa using hm)
          · injection hs with hs; injection hs with h1 hs; injection hs with h2 h3
            subst h1; subst h2; subst h3
            refine ⟨fun ht => ?_, fun hm => Or.inl (by rwa [hres_eq] at hm)⟩
            rcases hinv ht with hn | ⟨j, hj, hji, hjr⟩
            · exact Or.inl (by rwa [hneg_eq])
            · exact Or.inr ⟨j, hstart_pres j hj, by simpa using hjr⟩
        · split at hs
          · -- c = ']'
            split at hs
            · rename_i choices
              injection hs with hs; injection hs with h1 hs; injection hs with h2 h3
              subst h1; subst h2; subst h3
              refine ⟨fun ht => Production.noConfusion ht, fun hm => ?_⟩
              rcases mem_push_precise hm with hm | ⟨hnegf, hm⟩ | ⟨hnegt, hm⟩
              · exact Or.inl (by rw [← hres_eq]; simpa using hm)
              · exfalso
                injection hm with hcs
                rw [negate_reset] at hnegf
                split at hcs
                · exact absurd hcs.symm (by simp)
                · rename_i hcap
                  subst hcs
                  rcases hinv rfl with hn | ⟨j, hj, hji, hjr⟩
                  · rw [hneg_eq] at hnegf
                    rw [hn] at hnegf
                    exact absurd hnegf (by decide)
                  · have hsome := capture_isSome_of_start (hstart_pres j hj) hji
                    rw [hsome] at hcap
                    exact absurd hcap (by simp)
              · exact Production.noConfusion hm
            · injection hs with hs; injection hs with h1 hs; injection hs with h2 h3
              subst h1; subst h2; subst h3
              refine ⟨fun ht => ?_, fun hm => Or.inl (by rwa [hres_eq] at hm)⟩
              rcases hinv ht with hn | ⟨j, hj, hji, hjr⟩
              · exact Or.inl (by rwa [hneg_eq])
              · exact Or.inr ⟨j, hstart_pres j hj, by simpa using hjr⟩
          · injection hs with hs; injection hs with h1 hs; injection hs with h2 h3
            subst h1; subst h2; subst h3
            refine ⟨fun ht => ?_, fun hm => Or.inl (by rwa [hres_eq] at hm)⟩
            rcases hinv ht with hn | ⟨j, hj, hji, hjr⟩
            · exact Or.inl (by rwa [hneg_eq])
            · exact Or.inr ⟨j, hstart_pres j hj, by simpa using hjr⟩

theorem le_fst_of_mem_enumFrom {α : Type} :
    ∀ (xs : List α) (n : Nat) (q : Nat × α), q ∈ xs.enumFrom n → n ≤ q.1 := by
  intro xs
  induction xs with
  | nil => intro n q hq; simp [List.enumFrom] at hq
  | cons x xs ih =>
    intro n q hq
    simp only [List.enumFrom, List.mem_cons] at hq
    rcases hq with rfl | hq
    · exact le_refl n
    · exact Nat.le_of_succ_le (ih (n + 1) q hq)

theorem pairwise_fst_lt_enumFrom {α : Type} :
    ∀ (xs : List α) (n : Nat),
      List.Pairwise (fun a b : Nat × α => a.1 < b.1) (xs.enumFrom n) := by
  intro xs
  induction xs with
  | nil => intro n; simp [List.enumFrom]
  | cons x xs ih =>
    intro n
    simp only [List.enumFrom]
    refine List.pairwise_cons.mpr ⟨?_, ih (n + 1)⟩
    intro q hq
    exact Nat.lt_of_succ_le (le_fst_of_mem_enumFrom xs (n + 1) q hq)

theorem pairwise_fst_lt_enum {α : Type} (xs : List α) :
    List.Pairwise (fun a b : Nat × α => a.1 < b.1) xs.enum := by
  simpa [List.enum] using pairwise_fst_lt_enumFrom xs 0

theorem map_snd_enumFrom {α : Type} :
    ∀ (xs : List α) (n : Nat), (xs.enumFrom n).map Prod.snd = xs := by
  intro xs
  induction xs with
  | nil => intro n; simp [List.enumFrom]
  | cons x xs ih =>
    intro n
    simp [List.enumFrom, ih]

theorem map_snd_enum {α : Type} (xs : List α) : xs.enum.map Prod.snd = xs :=
  map_snd_enumFrom xs 0

theorem runAux_c4 :
    ∀ (st : WildcardParser) (token : Production) (prev : Nat × Char) (l : List (Nat × Char))
      (st2 : WildcardParser) (tk2 : Production),
      WildcardParser.runAux st token prev l = .ok (st2, tk2) →
      List.Pairwise (fun a b : Nat × Char => a.1 < b.1) l →
      (token = Production.OneOf [] →
        st.negate = true ∨ ∃ j, st.start = some j ∧ ∀ q ∈ l, j < q.1) →
      Production.OneOf [] ∈ st2.result →
      Production.OneOf [] ∈ st.result ∨ '?' ∈ l.map Prod.snd := by
  intro st token prev l
  induction st, token, prev, l using WildcardParser.runAux.induct with
  | case1 self token prev =>
    intro st2 tk2 hrun hsort hinv hm
    simp only [WildcardParser.runAux, Except.ok.injEq, Prod.mk.injEq] at hrun
    obtain ⟨rfl, rfl⟩ := hrun
    exact Or.inl hm
  | case2 self token prev index c tail e hstep =>
    intro st2 tk2 hrun hsort hinv hm
    simp only [WildcardParser.runAux, hstep] at hrun
    exact absurd hrun (by simp)
  | case3 self token prev index c self2 token2 hstep =>
    intro st2 tk2 hrun hsort hinv hm
    simp only [WildcardParser.runAux, hstep, if_true, Except.ok.injEq, Prod.mk.injEq] at hrun
    obtain ⟨rfl, rfl⟩ := hrun
    have hinvs : token = Production.OneOf [] →
        self.negate = true ∨ ∃ j, self.start = some j ∧ j < index ∧ ∀ q ∈ ([] : List (Nat × Char)), j < q.1 := by
      intro ht
      rcases hinv ht with hn | ⟨j, hj, hjl⟩
      · exact Or.inl hn
      · exact Or.inr ⟨j, hj, hjl (index, c) (List.Mem.head _), by simp⟩
    obtain ⟨_, hE⟩ := step_c4 hstep hinvs (by simp)
    rcases hE hm with hm2 | hm2
    · exact Or.inl hm2
    · exact Or.inr (by simp [hm2])
  | case4 self token prev index c self2 token2 head rest2 hstep ih =>
    intro st2 tk2 hrun hsort hinv hm
    simp only [WildcardParser.runAux, hstep, if_true] at hrun
    have hinvs : token = Production.OneOf [] →
        self.negate = true ∨ ∃ j, self.start = some j ∧ j < index ∧ ∀ q ∈ head :: rest2, j < q.1 := by
      intro ht
      rcases hinv ht with hn | ⟨j, hj, hjl⟩
      · exact Or.inl hn
      · exact Or.inr ⟨j, hj, hjl (index, c) (List.Mem.head _),
          fun q hq => hjl q (List.Mem.tail _ hq)⟩
    obtain ⟨hinv2, hE⟩ := step_c4 hstep hinvs (List.pairwise_cons.mp hsort).2
    have hsort2 : List.Pairwise (fun a b : Nat × Char => a.1 < b.1) rest2 :=
      (List.pairwise_cons.mp (List.pairwise_cons.mp hsort).2).2
    rcases ih st2 tk2 hrun hsort2 (by simpa using hinv2) hm with hm2 | hm2
    · rcases hE hm2 with hm3 | hm3
      · exact Or.inl hm3
      · exact Or.inr (by simp [hm3])
    · exact Or.inr (by
        simp only [List.map_cons, List.mem_cons]
        exact Or.inr (Or.inr hm2))
  | case5 self token prev index c tail self2 token2 consumed hstep hncons ih =>
    intro st2 tk2 hrun hsort hinv hm
    have hc : consumed = false := by
      cases consumed
      · rfl
      · exact absurd rfl hncons
    subst hc
    simp only [WildcardParser.runAux, hstep, Bool.false_eq_true, if_false] at hrun
    have hinvs : token = Production.OneOf [] →
        self.negate = true ∨ ∃ j, self.start = some j ∧ j < index ∧ ∀ q ∈ tail, j < q.1 := by
      intro ht
      rcases hinv ht with hn | ⟨j, hj, hjl⟩
      · exact Or.inl hn
      · exact Or.inr ⟨j, hj, hjl (index, c) (List.Mem.head _),
          fun q hq => hjl q (List.Mem.tail _ hq)⟩
    obtain ⟨hinv2, hE⟩ := step_c4 hstep hinvs (List.pairwise_cons.mp hsort).2
    rcases ih st2 tk2 hrun (List.pairwise_cons.mp hsort).2 (by simpa using hinv2) hm with hm2 | hm2
    · rcases hE hm2 with hm3 | hm3
      · exact Or.inl hm3
      · exact Or.inr (by simp [hm3])
    · exact Or.inr (by
        simp only [List.map_cons, List.mem_cons]
        exact Or.inr hm2)

theorem prodOK_not {p : Production} (h : prodOK p) : prodOK (Production.Not p) := h

theorem prodOK_push (st : WildcardParser) (p : Production)
    (h : ∀ q ∈ st.result, prodOK q) (hp : prodOK p) :
    ∀ q ∈ (st.push p).result, prodOK q := by
  intro q hq
  unfold WildcardParser.push at hq
  split at hq <;> simp only [List.mem_append, List.mem_singleton] at hq <;>
    rcases hq with hq | rfl
  · exact h q hq
  · exact prodOK_not hp
  · exact h q hq
  · exact hp

theorem prodOK_flush (st : WildcardParser) (i : Nat)
    (h : ∀ q ∈ st.result, prodOK q) :
    ∀ q ∈ (st.flush i).result, prodOK q := by
  unfold WildcardParser.flush
  split
  · exact prodOK_push st _ h trivial
  · exact h

theorem prodOK_oneOf_nil : prodOK (Production.OneOf []) := by
  intro ch hch
  exact absurd hch (List.not_mem_nil ch)

theorem prodOK_manyOf_nil : prodOK (Production.ManyOf []) := by
  intro ch hch
  exact absurd hch (List.not_mem_nil ch)

theorem prodOK_oneOf_append_anyOf {cs : List Choice} {s : List Char}
    (h : prodOK (Production.OneOf cs)) :
    prodOK (Production.OneOf (cs ++ [Choice.AnyOf s])) := by
  intro ch hch
  rcases List.mem_append.mp hch with hch | hch
  · exact h ch hch
  · rcases List.mem_singleton.mp hch with rfl
    trivial

theorem prodOK_oneOf_append_range {cs : List Choice} {lo hi : Char}
    (h : prodOK (Production.OneOf cs)) (hle : lo.toNat ≤ hi.toNat) :
    prodOK (Production.OneOf (cs ++ [Choice.Range lo hi])) := by
  intro ch hch
  rcases List.mem_append.mp hch with hch | hch
  · exact h ch hch
  · rcases List.mem_singleton.mp hch with rfl
    exact hle

theorem step_prodOK {st : WildcardParser} {token : Production} {prev : Nat × Char}
    {i : Nat} {c : Char} {rest : List (Nat × Char)}
    {st2 : WildcardParser} {token2 : Production} {consumed : Bool}
    (hs : WildcardParser.step st token prev i c rest = .ok (st2, token2, consumed))
    (hres : ∀ p ∈ st.result, prodOK p) (htok : prodOK token) :
    (∀ p ∈ st2.result, prodOK p) ∧ prodOK token2 := by
  unfold WildcardParser.step at hs
  have hres2 : ∀ p ∈ (if st.start.isNone = true then st.start_capture i else st).result, prodOK p := by
    split <;> exact hres
  set self := if st.start.isNone = true then st.start_capture i else st with hself
  clear_value self
  split at hs
  · split at hs <;>
      (injection hs with hs; injection hs with h1 hs; injection hs with h2 h3;
       subst h1; subst h2)
    · exact ⟨prodOK_push _ _ (fun q hq => prodOK_flush self i hres2 q (by simpa using hq)) prodOK_manyOf_nil, htok⟩
    · exact ⟨hres2, htok⟩
  · split at hs
    · split at hs <;>
        (injection hs with hs; injection hs with h1 hs; injection hs with h2 h3;
         subst h1; subst h2)
      · exact ⟨prodOK_push _ _ (fun q hq => prodOK_flush self i hres2 q (by simpa using hq)) prodOK_oneOf_nil, htok⟩
      · exact ⟨hres2, htok⟩
    · split at hs
      · split at hs
        · split at hs
          · exact absurd hs (by simp)
          · injection hs with hs; injection hs with h1 hs; injection hs with h2 h3
            subst h1; subst h2
            constructor
            · intro q hq
              have hq2 : q ∈ (self.flush i).result := by
                split at hq <;> exact hq
              exact prodOK_flush self i hres2 q hq2
            · exact prodOK_oneOf_nil
        · injection hs with hs; injection hs with h1 hs; injection hs with h2 h3
          subst h1; subst h2
          exact ⟨hres2, htok⟩
      · split at hs
        · split at hs
          · split at hs
            · exact absurd hs (by simp)
            · split at hs
              · exact absurd hs (by simp)
              · injection hs with hs; injection hs with h1 hs; injection hs with h2 h3
                subst h1; subst h2
                refine ⟨by simpa using hres2, ?_⟩
                refine prodOK_oneOf_append_range ?_ (by omega)
                split
                · exact prodOK_oneOf_append_anyOf htok
                · exact htok
          · injection hs with hs; injection hs with h1 hs; injection hs with h2 h3
            subst h1; subst h2
            exact ⟨hres2, htok⟩
        · split at hs
          · split at hs
            · injection hs with hs; injection hs with h1 hs; injection hs with h2 h3
              subst h1; subst h2
              constructor
              · refine prodOK_push _ _ (by simpa using hres2) ?_
                split
                · exact prodOK_oneOf_append_anyOf htok
                · exact htok
              · trivial
            · injection hs with hs; injection hs with h1 hs; injection hs with h2 h3
              subst h1; subst h2
              exact ⟨hres2, htok⟩
          · injection hs with hs; injection hs with h1 hs; injection hs with h2 h3
            subst h1; subst h2
            exact ⟨hres2, htok⟩

theorem runAux_prodOK :
    ∀ (st : WildcardParser) (token : Production) (prev : Nat × Char) (l : List (Nat × Char))
      (st2 : WildcardParser) (tk2 : Production),
      WildcardParser.runAux st token prev l = .ok (st2, tk2) →
      (∀ p ∈ st.result, prodOK p) → prodOK token →
      (∀ p ∈ st2.result, prodOK p) ∧ prodOK tk2 := by
  intro st token prev l
  induction st, token, prev, l using WildcardParser.runAux.induct with
  | case1 self token prev =>
    intro st2 tk2 hrun hres htok
    simp only [WildcardParser.runAux, Except.ok.injEq, Prod.mk.injEq] at hrun
    obtain ⟨rfl, rfl⟩ := hrun
    exact ⟨hres, htok⟩
  | case2 self token prev index c tail e hstep =>
    intro st2 tk2 hrun hres htok
    simp only [WildcardParser.runAux, hstep] at hrun
    exact absurd hrun (by simp)
  | case3 self token prev index c self2 token2 hstep =>
    intro st2 tk2 hrun hres htok
    simp only [WildcardParser.runAux, hstep, if_true, Except.ok.injEq, Prod.mk.injEq] at hrun
    obtain ⟨rfl, rfl⟩ := hrun
    exact step_prodOK hstep hres htok
  | case4 self token prev index c self2 token2 head rest2 hstep ih =>
    intro st2 tk2 hrun hres htok
    simp only [WildcardParser.runAux, hstep, if_true] at hrun
    obtain ⟨h1, h2⟩ := step_prodOK hstep hres htok
    exact ih st2 tk2 hrun h1 h2
  | case5 self token prev index c tail self2 token2 consumed hstep hncons ih =>
    intro st2 tk2 hrun hres htok
    have hc : consumed = false := by
      cases consumed
      · rfl
      · exact absurd rfl hncons
    subst hc
    simp only [WildcardParser.runAux, hstep, Bool.false_eq_true, if_false] at hrun
    obtain ⟨h1, h2⟩ := step_prodOK hstep hres htok
    exact ih st2 tk2 hrun h1 h2

theorem run_prodOK (self : WildcardParser) (w : Wildcard)
    (h : self.run = .ok w) (hres : ∀ p ∈ self.result, prodOK p) :
    ∀ p ∈ w, prodOK p := by
  unfold WildcardParser.run at h
  cases heq : WildcardParser.runAux self (Production.Sequence self.source) (0, Char.ofNat 0) self.source.enum with
  | error e =>
    rw [heq] at h
    exact absurd h (by simp)
  | ok pr =>
    rw [heq] at h
    obtain ⟨st, token⟩ := pr
    cases token with
    | Sequence s =>
      simp only [Except.ok.injEq] at h
      subst h
      obtain ⟨h1, _⟩ := runAux_prodOK self _ _ _ st (Production.Sequence s) heq hres trivial
      exact prodOK_flush st _ h1
    | ManyOf cs => exact absurd h (by simp)
    | OneOf cs => exact absurd h (by simp)
    | Not p => exact absurd h (by simp)

theorem matchAux_star (s : List Char) :
    ∀ ck, matchAux [Production.ManyOf []] s ck = true := by
  induction s with
  | nil => intro ck; rcases ck with _ | ⟨st, ss⟩ <;> simp [matchAux]
  | cons c rest ih => intro ck; rcases ck with _ | ⟨st, ss⟩ <;> simp [matchAux, ih]

/-- C1: the code at the failing inputs.  `parse("[z-a]")` succeeds (with
the range `('[', 'a')`) instead of failing with `InvalidCharRange('z','a')`,
and `parse("[a-z]")` yields the range `('[', 'z')` instead of `('a', 'z')`:
when `-` is the second character of a bracket expression, the parser's
`prev` still holds the opening `[` (the character after `[` was consumed
by the `iter.next()` inside the `'['` arm, which skips the `prev` update). -/
theorem parse_range_after_open_bracket :
    Wildcard.parse "[z-a]".toList = Except.ok [Production.OneOf [Choice.Range '[' 'a']]
    ∧ Wildcard.parse "[a-z]".toList = Except.ok [Production.OneOf [Choice.Range '[' 'z']] :=
  ⟨rfl, rfl⟩

/-- C2: the code at the failing input.  `"[a-z]"` is canonical text (it is
the rendering of the pattern `[CharClass [Range 'a' 'z']]`), yet
`render(parse("[a-z]"))` is `"[[-z]"`, not `"[a-z]"`: the round-trip law
fails on the code because of the stale-`prev` slip described at C1. -/
theorem render_parse_not_identity :
    (Wildcard.parse "[a-z]".toList).map Wildcard.render = Except.ok "[[-z]".toList
    ∧ Wildcard.render [Production.OneOf [Choice.Range 'a' 'z']] = "[a-z]".toList
    ∧ "[[-z]".toList ≠ "[a-z]".toList :=
  ⟨rfl, rfl, by decide⟩

/-- C3: `matches(parse("*"), s)` is true for every subject `s`, including
the empty one (matcher modelled from spec §4.3). -/
theorem star_matches_every_subject (s : List Char) :
    (Wildcard.parse "*".toList).map (fun w => Wildcard.matches w s) = Except.ok true := by
  have h : Wildcard.parse "*".toList = Except.ok [Production.ManyOf []] := rfl
  rw [h]
  simp [Except.map, Wildcard.matches, matchAux_star]

/-- C4 counterexample: a character-class token with zero choices does
arise from a bracket expression: `parse("[!]")` succeeds with the single
production `Not (OneOf [])` — a negated zero-choice character class —
although the input contains no `?`. -/
theorem zero_choice_class_from_bracket :
    Wildcard.parse "[!]".toList = Except.ok [Production.Not (Production.OneOf [])]
    ∧ isZeroChoiceClass (Production.Not (Production.OneOf [])) = true
    ∧ '?' ∉ "[!]".toList :=
  ⟨rfl, rfl, by decide⟩

/-- C5: `parse("[")` and `parse("[abc")` fail with `Incomplete`, and every
run of `parse` either succeeds or fails with one of the two error values
`Incomplete` and `InvalidCharRange(lo, hi)`. -/
theorem parse_error_conditions :
    Wildcard.parse "[".toList = Except.error WildcardParseError.Incomplete
    ∧ Wildcard.parse "[abc".toList = Except.error WildcardParseError.Incomplete
    ∧ ∀ s : List Char,
        (∃ w, Wildcard.parse s = Except.ok w)
        ∨ Wildcard.parse s = Except.error WildcardParseError.Incomplete
        ∨ ∃ lo hi, Wildcard.parse s = Except.error (WildcardParseError.InvalidCharRange lo hi) := by
  refine ⟨rfl, rfl, fun s => ?_⟩
  cases hp : Wildcard.parse s with
  | ok w => exact Or.inl ⟨w, rfl⟩
  | error e =>
    cases e with
    | Incomplete => exact Or.inr (Or.inl rfl)
    | InvalidCharRange lo hi => exact Or.inr (Or.inr ⟨lo, hi, rfl⟩)

/-- C8: the public interface constructs a `Wildcard` only through
`Wildcard::new`, whose (empty) value is exactly the successful result of
`parse` on the empty text. -/
theorem new_is_parse_of_empty : Wildcard.parse [] = Except.ok Wildcard.new :=
  rfl

/-- C9: a `]` that is the first character inside a bracket expression is
consumed as the start of a member capture and does not close the bracket:
`parse("[]")` fails with `Incomplete` while `parse("[]]")` succeeds with a
single character class whose sole member text is `"]"`. -/
theorem bracket_first_char_close :
    Wildcard.parse "[]".toList = Except.error WildcardParseError.Incomplete
    ∧ Wildcard.parse "[]]".toList = Except.ok [Production.OneOf [Choice.AnyOf [']']]] :=
  ⟨rfl, rfl⟩

/-- C10: a `]` immediately following `-` inside a bracket expression is
consumed as the range's high endpoint rather than closing the bracket:
`parse("[a-]")` fails with `Incomplete`, and in `parse("[A-]]")` the first
`]` becomes the high endpoint of the recorded range while the second one
closes the bracket. -/
theorem bracket_close_after_dash :
    Wildcard.parse "[a-]".toList = Except.error WildcardParseError.Incomplete
    ∧ Wildcard.parse "[A-]]".toList = Except.ok [Production.OneOf [Choice.Range '[' ']']] :=
  ⟨rfl, rfl⟩

/-- C6: for every input on which `parse` succeeds, every `Range(lo, hi)`
choice contained anywhere in the resulting pattern satisfies `lo <= hi` in
code-point order (that is `prodOK`); a violated range is rejected at parse
time and never constructed. -/
theorem parse_range_endpoints_ordered (s : List Char) (w : Wildcard)
    (h : Wildcard.parse s = .ok w) : ∀ p ∈ w, prodOK p := by
  refine run_prodOK (WildcardParser.new s) w h ?_
  intro p hp
  exact absurd hp (List.not_mem_nil p)

/-- Witness for C6, instantiated at the input `"[xa-z]"`. -/
theorem parse_range_endpoints_ordered_witness :
    prodOK (Production.OneOf [Choice.AnyOf ['x'], Choice.Range 'a' 'z']) :=
  parse_range_endpoints_ordered "[xa-z]".toList
    [Production.OneOf [Choice.AnyOf ['x'], Choice.Range 'a' 'z']] rfl
    (Production.OneOf [Choice.AnyOf ['x'], Choice.Range 'a' 'z']) (List.Mem.head _)

/-- C7: for every input on which `parse` succeeds, the resulting token
sequence never contains two adjacent literal `Sequence` tokens, and every
literal token text span is non-empty (adjacent literal characters are
coalesced into one maximal span). -/
theorem parse_literal_spans_maximal (s : List Char) (w : Wildcard)
    (h : Wildcard.parse s = .ok w) :
    noAdjacentLiterals w ∧ literalsNonempty w := by
  unfold Wildcard.parse WildcardParser.run at h
  cases heq : WildcardParser.runAux (WildcardParser.new s) (Production.Sequence (WildcardParser.new s).source)
      (0, Char.ofNat 0) (WildcardParser.new s).source.enum with
  | error e =>
    rw [heq] at h
    exact absurd h (by simp)
  | ok pr =>
    rw [heq] at h
    obtain ⟨st, token⟩ := pr
    cases token with
    | Sequence s2 =>
      simp only [Except.ok.injEq] at h
      subst h
      obtain ⟨hA2, hB2, hC2, hsrc⟩ := runAux_lit (WildcardParser.new s) _ _ _ st
        (Production.Sequence s2) heq
        (by simp [noAdjacentLiterals, WildcardParser.new, Wildcard.new])
        (fun p hp => absurd hp (List.not_mem_nil p))
        (fun t ht => ⟨rfl, fun q hq => by
          simp [WildcardParser.new, Wildcard.new] at hq⟩)
        (fun q hq => fst_lt_of_mem_enum s q hq)
      obtain ⟨hneg, hlast⟩ := hC2 s2 rfl
      exact lit_flush hA2 hB2 hneg hlast (le_refl _)
    | ManyOf cs => exact absurd h (by simp)
    | OneOf cs => exact absurd h (by simp)
    | Not p => exact absurd h (by simp)

/-- Witness for C7, instantiated at the input `"a*b"`. -/
theorem parse_literal_spans_maximal_witness :
    noAdjacentLiterals
      [Production.Sequence ['a'], Production.ManyOf [], Production.Sequence ['b']]
    ∧ literalsNonempty
      [Production.Sequence ['a'], Production.ManyOf [], Production.Sequence ['b']] :=
  parse_literal_spans_maximal "a*b".toList
    [Production.Sequence ['a'], Production.ManyOf [], Production.Sequence ['b']] rfl

/-- C4 (amended): a non-negated character-class token with zero choices
arises only from a `?` in the input: whenever `parse` succeeds and the
result contains the bare zero-choice class `OneOf []`, the input contains
a `?`.  A bracket expression can produce a zero-choice class only in
negated form, through `[!]` (see the counterexample theorem). -/
theorem bare_zero_choice_only_from_question (s : List Char) (w : Wildcard)
    (h : Wildcard.parse s = .ok w) (hm : Production.OneOf [] ∈ w) : '?' ∈ s := by
  unfold Wildcard.parse WildcardParser.run at h
  cases heq : WildcardParser.runAux (WildcardParser.new s)
      (Production.Sequence (WildcardParser.new s).source)
      (0, Char.ofNat 0) (WildcardParser.new s).source.enum with
  | error e =>
    rw [heq] at h
    exact absurd h (by simp)
  | ok pr =>
    rw [heq] at h
    obtain ⟨st, token⟩ := pr
    cases token with
    | Sequence s2 =>
      simp only [Except.ok.injEq] at h
      subst h
      have hm2 := oneOf_nil_notmem_flush hm
      rcases runAux_c4 (WildcardParser.new s) _ _ _ st (Production.Sequence s2) heq
        (pairwise_fst_lt_enum s) (fun ht => Production.noConfusion ht) hm2 with hm3 | hm3
      · exact absurd hm3 (List.not_mem_nil _)
      · rwa [map_snd_enum] at hm3
    | ManyOf cs => exact absurd h (by simp)
    | OneOf cs => exact absurd h (by simp)
    | Not p => exact absurd h (by simp)

/-- Witness for the amended C4, instantiated at the input `"?"`. -/
theorem bare_zero_choice_only_from_question_witness : '?' ∈ "?".toList :=
  bare_zero_choice_only_from_question "?".toList [Production.OneOf []] rfl
    (List.Mem.head _)

end Orphans
